import Mathlib

/-!
Verification of `janacifhelper.py` (JANA CIF Helper).

This file shallowly embeds the numeric and string-processing core of the
script in Lean 4: Python floats are idealised as exact rationals (`ℚ`),
Python's `round`/`'{:.Nf}'` round-half-to-even semantics are modelled
exactly, strings are Lean `String`s, and the fallible operations
(`float(...)` parsing, the marker-scanning loops) are modelled with
`Option`/explicit outcome types.  Every definition is translated from the
source; the few definitions that instead follow the specification's wording
(for comparison against the source) are marked as such in their doc
comments.
-/

/-- Power `10 ^ n` on `ℚ` by structural recursion. -/
def pow10N : ℕ → ℚ
  | 0 => 1
  | n + 1 => 10 * pow10N n

/-- Model of Python's `10 ** e` for an integer exponent `e` (exact rational). -/
def pow10 (e : ℤ) : ℚ :=
  if 0 ≤ e then pow10N e.toNat else (pow10N (-e).toNat)⁻¹

/-- Fuel-driven base-10 logarithm on `ℕ` (number of digits minus one). -/
def natLog10F : ℕ → ℕ → ℕ
  | 0, _ => 0
  | f + 1, n => if n < 10 then 0 else natLog10F f (n / 10) + 1

/-- Base-10 logarithm on naturals: `natLog10 n = ⌊log10 n⌋` for `n ≥ 1`. -/
def natLog10 (n : ℕ) : ℕ := natLog10F n n

/-- Model of Python's `math.floor(math.log10(q))` for a positive rational `q`:
the unique `z` with `10^z ≤ q < 10^(z+1)`. -/
def qLog10 (q : ℚ) : ℤ :=
  if pow10 ((natLog10 q.num.toNat : ℤ) - (natLog10 q.den : ℤ)) ≤ q
  then (natLog10 q.num.toNat : ℤ) - (natLog10 q.den : ℤ)
  else (natLog10 q.num.toNat : ℤ) - (natLog10 q.den : ℤ) - 1

/-- Model of Python's `math.trunc` (round toward zero) on a rational. -/
def qTrunc (q : ℚ) : ℤ :=
  if 0 ≤ q then ⌊q⌋ else -⌊-q⌋

/-- Round to the nearest integer, ties to the even integer: the rounding used
by Python's built-in `round` and by `'{:.Nf}'.format`. -/
def roundHalfEven (q : ℚ) : ℤ :=
  if q - ⌊q⌋ < 1/2 then ⌊q⌋
  else if 1/2 < q - ⌊q⌋ then ⌊q⌋ + 1
  else if ⌊q⌋ % 2 = 0 then ⌊q⌋ else ⌊q⌋ + 1

/-- Model of Python's `round(q, d)` (round half to even at `d` decimal places),
idealising the binary double as an exact rational. -/
def pyRound (q : ℚ) (d : ℤ) : ℚ :=
  (roundHalfEven (q * pow10 d) : ℚ) / pow10 d

/-! ### Basic facts about `pow10`, `qLog10`, `qTrunc`, `roundHalfEven` -/

theorem pow10N_eq (n : ℕ) : pow10N n = (10 : ℚ) ^ n := by
  induction n with
  | zero => rfl
  | succ k ih => rw [pow10N, ih, pow_succ]; ring

theorem pow10_eq_zpow (e : ℤ) : pow10 e = (10 : ℚ) ^ e := by
  unfold pow10
  by_cases h : 0 ≤ e
  · rw [if_pos h, pow10N_eq, ← zpow_natCast, Int.toNat_of_nonneg h]
  · rw [if_neg h, pow10N_eq, ← zpow_natCast,
      Int.toNat_of_nonneg (by omega : (0:ℤ) ≤ -e), ← zpow_neg, neg_neg]

theorem pow10_pos (e : ℤ) : 0 < pow10 e := by
  rw [pow10_eq_zpow]; positivity

theorem pow10_ne_zero (e : ℤ) : pow10 e ≠ 0 := ne_of_gt (pow10_pos e)

theorem pow10_add (a b : ℤ) : pow10 (a + b) = pow10 a * pow10 b := by
  rw [pow10_eq_zpow, pow10_eq_zpow, pow10_eq_zpow,
    zpow_add₀ (by norm_num : (10:ℚ) ≠ 0)]

theorem pow10_mono {a b : ℤ} (h : a ≤ b) : pow10 a ≤ pow10 b := by
  rw [pow10_eq_zpow, pow10_eq_zpow]
  exact zpow_le_zpow_right₀ (by norm_num) h

theorem natLog10F_spec :
    ∀ f n : ℕ, 1 ≤ n → n ≤ f →
      10 ^ natLog10F f n ≤ n ∧ n < 10 ^ (natLog10F f n + 1) := by
  intro f
  induction f with
  | zero => intro n h1 h2; omega
  | succ k ih =>
    intro n h1 h2
    rw [natLog10F]
    by_cases hlt : n < 10
    · simp only [if_pos hlt]
      constructor
      · simpa using h1
      · simpa using hlt
    · simp only [if_neg hlt]
      push_neg at hlt
      have hd1 : 1 ≤ n / 10 := (Nat.one_le_div_iff (by norm_num)).2 hlt
      have hdk : n / 10 ≤ k := by
        have := Nat.div_lt_self (by omega : 0 < n) (by norm_num : 1 < 10)
        omega
      obtain ⟨hlo, hhi⟩ := ih (n / 10) hd1 hdk
      constructor
      · calc 10 ^ (natLog10F k (n / 10) + 1)
            = 10 ^ natLog10F k (n / 10) * 10 := by rw [pow_succ]
          _ ≤ (n / 10) * 10 := Nat.mul_le_mul_right 10 hlo
          _ ≤ n := Nat.div_mul_le_self n 10
      · have h2' : n < (n / 10 + 1) * 10 := by
          have ha := Nat.div_add_mod n 10
          have hb := Nat.mod_lt n (show 0 < 10 by norm_num)
          omega
        calc n < (n / 10 + 1) * 10 := h2'
          _ ≤ 10 ^ (natLog10F k (n / 10) + 1) * 10 := by
              exact Nat.mul_le_mul_right 10 (by omega)
          _ = 10 ^ (natLog10F k (n / 10) + 1 + 1) := by ring

theorem natLog10_spec (n : ℕ) (h : 1 ≤ n) :
    10 ^ natLog10 n ≤ n ∧ n < 10 ^ (natLog10 n + 1) :=
  natLog10F_spec n n h le_rfl

theorem pow10_sub (a b : ℤ) : pow10 (a - b) = pow10 a / pow10 b := by
  rw [pow10_eq_zpow, pow10_eq_zpow, pow10_eq_zpow,
    zpow_sub₀ (by norm_num : (10:ℚ) ≠ 0)]

theorem pow10_natCast (a : ℕ) : pow10 (a : ℤ) = (10:ℚ) ^ a := by
  rw [pow10_eq_zpow, zpow_natCast]

theorem pow10_natCast_succ (a : ℕ) : pow10 ((a : ℤ) + 1) = (10:ℚ) ^ (a + 1) := by
  have : ((a : ℤ) + 1) = ((a + 1 : ℕ) : ℤ) := by push_cast; ring
  rw [this, pow10_natCast]

theorem qLog10_spec (q : ℚ) (hq : 0 < q) :
    pow10 (qLog10 q) ≤ q ∧ q < pow10 (qLog10 q + 1) := by
  have hnum : 0 < q.num := Rat.num_pos.2 hq
  have hnum' : ((q.num.toNat : ℤ)) = q.num := Int.toNat_of_nonneg (le_of_lt hnum)
  set n := q.num.toNat with hn
  set d := q.den with hd
  have hn1 : 1 ≤ n := by omega
  have hd1 : 1 ≤ d := q.den_pos
  obtain ⟨hnlo, hnhi⟩ := natLog10_spec n hn1
  obtain ⟨hdlo, hdhi⟩ := natLog10_spec d hd1
  set A := natLog10 n with hA
  set B := natLog10 d with hB
  have hcast : ((n : ℚ)) = (q.num : ℚ) := by exact_mod_cast hnum'
  have hqeq : q = (n : ℚ) / (d : ℚ) := by
    rw [hcast, hd]
    exact (Rat.num_div_den q).symm
  have hdenpos : (0:ℚ) < (d : ℚ) := by exact_mod_cast hd1
  have hupper : q < pow10 ((A : ℤ) - (B : ℤ) + 1) := by
    have h1 : ((A : ℤ)) - (B : ℤ) + 1 = ((A : ℤ) + 1) - (B : ℤ) := by ring
    rw [h1, pow10_sub, pow10_natCast_succ, pow10_natCast, hqeq]
    rw [div_lt_div_iff₀ hdenpos (by positivity)]
    calc (n : ℚ) * 10 ^ B
        < 10 ^ (A + 1) * 10 ^ B := by
          apply mul_lt_mul_of_pos_right _ (by positivity)
          exact_mod_cast hnhi
      _ ≤ 10 ^ (A + 1) * (d : ℚ) := by
          apply mul_le_mul_of_nonneg_left _ (by positivity)
          exact_mod_cast hdlo
  have hlower : pow10 ((A : ℤ) - (B : ℤ) - 1) ≤ q := by
    have h1 : ((A : ℤ)) - (B : ℤ) - 1 = ((A : ℤ)) - ((B : ℤ) + 1) := by ring
    rw [h1, pow10_sub, pow10_natCast, pow10_natCast_succ, hqeq]
    rw [div_le_div_iff₀ (by positivity) hdenpos]
    calc (10:ℚ) ^ A * (d : ℚ)
        ≤ (n : ℚ) * (d : ℚ) := by
          apply mul_le_mul_of_nonneg_right _ (le_of_lt hdenpos)
          exact_mod_cast hnlo
      _ ≤ (n : ℚ) * 10 ^ (B + 1) := by
          apply mul_le_mul_of_nonneg_left _ (by positivity)
          exact_mod_cast le_of_lt hdhi
  unfold qLog10
  rw [← hn, ← hd, ← hA, ← hB]
  by_cases hc : pow10 ((A : ℤ) - (B : ℤ)) ≤ q
  · rw [if_pos hc]
    exact ⟨hc, hupper⟩
  · rw [if_neg hc]
    push_neg at hc
    refine ⟨hlower, ?_⟩
    have h2 : (A : ℤ) - (B : ℤ) - 1 + 1 = (A : ℤ) - (B : ℤ) := by ring
    rw [h2]
    exact hc

theorem qLog10_unique (q : ℚ) (z : ℤ) (hq : 0 < q)
    (h1 : pow10 z ≤ q) (h2 : q < pow10 (z + 1)) : qLog10 q = z := by
  obtain ⟨g1, g2⟩ := qLog10_spec q hq
  by_contra hne
  rcases lt_or_gt_of_ne hne with hlt | hgt
  · have := pow10_mono (by omega : qLog10 q + 1 ≤ z)
    linarith
  · have := pow10_mono (by omega : z + 1 ≤ qLog10 q)
    linarith

theorem roundHalfEven_intCast (m : ℤ) : roundHalfEven (m : ℚ) = m := by
  unfold roundHalfEven
  rw [Int.floor_intCast, sub_self]
  norm_num

theorem roundHalfEven_le (q : ℚ) : (roundHalfEven q : ℚ) ≤ q + 1/2 := by
  unfold roundHalfEven
  have hf := Int.floor_le q
  have hf' := Int.lt_floor_add_one q
  split
  · linarith
  · split
    · push_cast; linarith
    · split
      · linarith
      · push_cast
        rename_i hn1 hn2 _
        push_neg at hn1 hn2
        linarith

theorem le_roundHalfEven (q : ℚ) : q - 1/2 ≤ (roundHalfEven q : ℚ) := by
  unfold roundHalfEven
  have hf := Int.floor_le q
  have hf' := Int.lt_floor_add_one q
  split
  · rename_i hlt
    linarith
  · split
    · push_cast; linarith
    · split
      · rename_i hn1 hn2 _
        push_neg at hn1 hn2
        linarith
      · push_cast; linarith

theorem roundHalfEven_eq_of_lt (q : ℚ) (m : ℤ) (h1 : (m:ℚ) ≤ q)
    (h2 : q < m + 1/2) : roundHalfEven q = m := by
  have hf : ⌊q⌋ = m := Int.floor_eq_iff.2 ⟨h1, by linarith⟩
  unfold roundHalfEven
  rw [hf, if_pos (by linarith [hf] : q - (m:ℚ) < 1/2)]

theorem roundHalfEven_eq_of_gt (q : ℚ) (m : ℤ) (h1 : (m:ℚ) - 1/2 < q)
    (h2 : q ≤ m) : roundHalfEven q = m := by
  rcases eq_or_lt_of_le h2 with he | hlt
  · rw [he, roundHalfEven_intCast]
  · have hf : ⌊q⌋ = m - 1 := by
      apply Int.floor_eq_iff.2
      constructor
      · push_cast; linarith
      · push_cast; linarith
    unfold roundHalfEven
    rw [hf]
    rw [if_neg (by push_cast; linarith), if_pos (by push_cast; linarith)]
    omega

theorem roundHalfEven_carry (u : ℚ) (h1 : 19/2 ≤ u) (h2 : u < 10) :
    roundHalfEven u = 10 := by
  rcases eq_or_lt_of_le h1 with he | hlt
  · have hf : ⌊u⌋ = 9 := by
      apply Int.floor_eq_iff.2
      constructor
      · push_cast; linarith
      · push_cast; linarith
    unfold roundHalfEven
    rw [hf]
    rw [if_neg (by push_cast; linarith), if_neg (by push_cast; linarith),
      if_neg (by norm_num)]
    norm_num
  · exact roundHalfEven_eq_of_gt u 10 (by push_cast; linarith) (by push_cast; linarith)

theorem pyRound_eq_self (q : ℚ) (d : ℤ) (m : ℤ) (h : q * pow10 d = (m:ℚ)) :
    pyRound q d = q := by
  unfold pyRound
  rw [h, roundHalfEven_intCast, ← h, mul_div_assoc,
    div_self (pow10_ne_zero d), mul_one]

theorem pyRound_mul (q : ℚ) (d : ℤ) :
    pyRound q d * pow10 d = (roundHalfEven (q * pow10 d) : ℚ) := by
  unfold pyRound
  rw [div_mul_cancel₀ _ (pow10_ne_zero d)]

theorem qTrunc_eq_of_nonneg (q : ℚ) (m : ℤ) (h0 : 0 ≤ q) (h1 : (m:ℚ) ≤ q)
    (h2 : q < m + 1) : qTrunc q = m := by
  unfold qTrunc
  rw [if_pos h0, Int.floor_eq_iff.2 ⟨h1, by linarith⟩]

/-! ### Python fixed-point string formatting (`'{:.Nf}'.format`) -/

/-- Left-pad a digit list with `'0'` up to length `k`. -/
def padZeros (k : ℕ) (s : List Char) : List Char :=
  List.replicate (k - s.length) '0' ++ s

/-- Decimal rendering of a natural number with `dec` digits after the point
(no sign): the digit/point layout produced by Python's fixed-point format once
the value has been scaled to an integer `m` of units `10^-dec`. -/
def natRender (m : ℕ) (dec : ℕ) : String :=
  if dec = 0 then toString m
  else
    String.mk ((padZeros (dec + 1) (toString m).toList).take
        ((padZeros (dec + 1) (toString m).toList).length - dec) ++
      '.' :: (padZeros (dec + 1) (toString m).toList).drop
        ((padZeros (dec + 1) (toString m).toList).length - dec))

/-- Signed decimal rendering of an integer scaled by `10^-dec`. -/
def formatFixedInt (m : ℤ) (dec : ℕ) : String :=
  if m < 0 then "-" ++ natRender m.natAbs dec else natRender m.toNat dec

/-- Model of Python's `'{:.Df}'.format(q)` (`dec` decimal places, round half
to even); the caller supplies the float's sign separately when it matters
(negative zero). -/
def formatFixed (q : ℚ) (dec : ℕ) : String :=
  formatFixedInt (roundHalfEven (q * pow10 (dec : ℤ))) dec

/-- Model of Python's width padding in `'{:W.0f}'` (numbers right-align,
space fill). -/
def padSpaces (w : ℕ) (s : String) : String :=
  String.mk (List.replicate (w - s.length) ' ' ++ s.toList)

/-- Model of Python's `str.strip()` (here only spaces can occur). -/
def pyStrip (s : String) : String :=
  String.mk (((s.toList.dropWhile (fun c => c = ' ')).reverse.dropWhile
    (fun c => c = ' ')).reverse)

/-! ### The IUCr rounding/formatting engine (`iucr_string`, source lines 65-102) -/

/-- Source line 76: `sig_pos`, the position of the first significant digit of
the s.u. (`math.floor(math.log10(abs(values[1])))`). -/
def sig_pos (su : ℚ) : ℤ := qLog10 |su|

/-- Source lines 77-78: `sig_3`, the first three significant digits of the
s.u., moved directly behind the decimal separator (final range 0.100-0.999). -/
def sig_3 (su : ℚ) : ℚ :=
  (qTrunc (|su| * pow10 (2 - sig_pos su)) : ℚ) / pow10 (2 - sig_pos su)
    * pow10 (-(sig_pos su + 1))

/-- Source lines 80-92 (the three rounding branches): returns the rounded
average, the rounded s.u., the (possibly incremented) `sig_pos`, and
`sig_len`. -/
def iucrRound (a su : ℚ) : ℚ × ℚ × ℤ × ℕ :=
  if sig_3 su < 195/1000 then
    (pyRound a (1 - sig_pos su), pyRound |su| (1 - sig_pos su), sig_pos su, 2)
  else if sig_3 su < 950/1000 then
    (pyRound a (-sig_pos su), pyRound |su| (-sig_pos su), sig_pos su, 1)
  else
    (pyRound a (1 - (sig_pos su + 1)), pyRound |su| (1 - (sig_pos su + 1)),
      sig_pos su + 1, 2)

/-- Source lines 94-102 (string assembly).  `neg` is the sign bit of the
original average float `values[0]` (Python prints `-` from the float's sign,
which `round` preserves, so the magnitude `|avg|` plus `neg` determines the
output exactly; for `sign_shift` the source tests `values[0] < 0`, which
differs from the sign bit only for `-0.0`, where the resulting width change
is erased by `.strip()`). -/
def iucrRender (neg : Bool) (avg su : ℚ) (p : ℤ) (len : ℕ) : String :=
  if 0 < p then
    pyStrip (padSpaces (p + (if neg then -1 else 0)).toNat
        ((if neg then "-" else "") ++ formatFixed |avg| 0)) ++
      "(" ++ padSpaces p.toNat (formatFixed su 0) ++ ")"
  else
    ((if neg then "-" else "") ++ formatFixed |avg| ((-p + (len:ℤ) - 1)).toNat) ++
      "(" ++ formatFixed |su / pow10 (p - (len:ℤ) + 1)| 0 ++ ")"

/-- Coarse model of Python's `str(float)` used only in the `su == 0 or None`
early return (source line 74); no claim exercises that branch. -/
def pyStrFloat (q : ℚ) : String := toString q

/-- The engine on a sign bit and signed rationals: rounding stage followed by
rendering.  This is `iucr_string` minus the zero-s.u. early return, with the
average float split into sign bit and exact rational value. -/
def iucr_core (neg : Bool) (a su : ℚ) : String :=
  iucrRender neg (iucrRound a su).1 (iucrRound a su).2.1
    (iucrRound a su).2.2.1 (iucrRound a su).2.2.2

/-- Model of the source's `iucr_string(values)` (lines 65-102). -/
def iucr_string (values : ℚ × ℚ) : String :=
  if values.2 = 0 then pyStrFloat values.1
  else iucr_core (decide (values.1 < 0)) values.1 values.2

theorem iucr_core_eq (neg : Bool) (a su avg' su' : ℚ) (p : ℤ) (L : ℕ)
    (h : iucrRound a su = (avg', su', p, L)) :
    iucr_core neg a su = iucrRender neg avg' su' p L := by
  unfold iucr_core
  rw [h]

theorem sig_3_formula (su : ℚ) :
    sig_3 su = (qTrunc (|su| * pow10 (2 - sig_pos su)) : ℚ) / 1000 := by
  have key : ∀ t P : ℚ, P ≠ 0 → t / (P * 1000) * P = t / 1000 := by
    intro t P hP
    field_simp
    ring
  unfold sig_3
  have h1 : pow10 (2 - sig_pos su) = pow10 (-(sig_pos su + 1)) * 1000 := by
    rw [show (1000:ℚ) = pow10 3 from by rw [pow10_eq_zpow]; norm_num, ← pow10_add]
    congr 1
    ring
  rw [h1]
  exact key _ _ (pow10_ne_zero _)

/-! ### The ordinal formatter (`ordinal`, source lines 53-62) -/

/-- Python step-4 string slice `s[i::4]` (after the initial `drop i`). -/
def everyFourth : List Char → List Char
  | [] => []
  | [c] => [c]
  | [c, _] => [c]
  | [c, _, _] => [c]
  | c :: _ :: _ :: _ :: rest => c :: everyFourth rest

/-- The suffix table lookup of the source's `ordinal` (line 62):
`'tsnrhtdd'[(math.floor(n // 10) % 10 != 1) * (n % 10 < 4) * n % 10::4]`
(`*` and `%` associate left in Python, so the index is `((b1*b2)*n) % 10`). -/
def ordinalSuffix (n : ℕ) : String :=
  String.mk (everyFourth ((("tsnrhtdd").toList).drop
    ((((if n / 10 % 10 ≠ 1 then 1 else 0) * (if n % 10 < 4 then 1 else 0)) * n)
      % 10)))

/-- Model of the source's `ordinal(n)` (lines 53-62): `'%d%s' % (n, suffix)`. -/
def ordinal (n : ℕ) : String := toString n ++ ordinalSuffix n

/-- Modelled from the spec's wording (§4.4): the standard English ordinal
suffix, teens 11-13 irregular; for comparison with the source's table trick. -/
def englishSuffix (n : ℕ) : String :=
  if n % 100 = 11 ∨ n % 100 = 12 ∨ n % 100 = 13 then "th"
  else if n % 10 = 1 then "st"
  else if n % 10 = 2 then "nd"
  else if n % 10 = 3 then "rd"
  else "th"

theorem ordinalSuffix_index_mod (n : ℕ) :
    (((if n / 10 % 10 ≠ 1 then 1 else 0) * (if n % 10 < 4 then 1 else 0) * n)
      % 10)
    = (((if (n % 100) / 10 % 10 ≠ 1 then 1 else 0)
        * (if (n % 100) % 10 < 4 then 1 else 0) * (n % 100)) % 10) := by
  have h1 : n % 100 / 10 % 10 = n / 10 % 10 := by omega
  have h2 : n % 100 % 10 = n % 10 := by omega
  rw [h1, h2]
  by_cases c1 : n / 10 % 10 ≠ 1 <;> by_cases c2 : n % 10 < 4 <;>
    simp [c1, c2] <;> omega

theorem ordinalSuffix_mod (n : ℕ) : ordinalSuffix n = ordinalSuffix (n % 100) := by
  unfold ordinalSuffix
  rw [ordinalSuffix_index_mod]

theorem englishSuffix_mod (n : ℕ) : englishSuffix n = englishSuffix (n % 100) := by
  unfold englishSuffix
  have h2 : n % 100 % 10 = n % 10 := by omega
  have h3 : n % 100 % 100 = n % 100 := by omega
  rw [h2, h3]

theorem suffix_agree : ∀ m : ℕ, m < 100 → ordinalSuffix m = englishSuffix m := by
  decide

/-! ### Python number parsing and `nibble_numbers` (source lines 105-120) -/

/-- Python whitespace as stripped by `float(...)`/`int(...)`/`str.strip()`
(only spaces occur in the logs). -/
def isPySpace (c : Char) : Bool :=
  (c == ' ') || (c == '\t') || (c == '\n') || (c == '\r')

/-- Numeric value of a list of decimal digits, most significant first. -/
def digitsVal (ds : List Char) : ℕ :=
  ds.foldl (fun a c => 10 * a + (c.toNat - ('0').toNat)) 0

/-- Optional sign followed by at least one digit (shared by the exponent part
of `float(...)` and by `int(...)`). -/
def parseSignedDigits : List Char → Option ℤ
  | [] => none
  | '+' :: rest =>
      if rest ≠ [] ∧ rest.all Char.isDigit then some ((digitsVal rest : ℤ))
      else none
  | '-' :: rest =>
      if rest ≠ [] ∧ rest.all Char.isDigit then some (-(digitsVal rest : ℤ))
      else none
  | rest =>
      if rest.all Char.isDigit then some ((digitsVal rest : ℤ)) else none

/-- Mantissa digits (`ip` before, `fp` after the point) and exponent tail to
a rational; `none` when the mantissa is empty or the tail is not a valid
exponent. -/
def mkFloat (neg : Bool) (ip fp rest : List Char) : Option ℚ :=
  if ip = [] ∧ fp = [] then none
  else
    match rest with
    | [] => some ((if neg then -1 else 1) *
        ((digitsVal ip : ℚ) + (digitsVal fp : ℚ) / pow10N fp.length))
    | 'e' :: ex => (parseSignedDigits ex).map (fun e => (if neg then -1 else 1) *
        ((digitsVal ip : ℚ) + (digitsVal fp : ℚ) / pow10N fp.length) * pow10 e)
    | 'E' :: ex => (parseSignedDigits ex).map (fun e => (if neg then -1 else 1) *
        ((digitsVal ip : ℚ) + (digitsVal fp : ℚ) / pow10N fp.length) * pow10 e)
    | _ => none

/-- Split a leading `+`/`-` sign. -/
def splitSign : List Char → Bool × List Char
  | '+' :: rest => (false, rest)
  | '-' :: rest => (true, rest)
  | rest => (false, rest)

/-- Parse the stripped character list of a Python float literal. -/
def pyFloatAux (cs : List Char) : Option ℚ :=
  match (splitSign cs).2.dropWhile Char.isDigit with
  | '.' :: rest2 =>
      mkFloat (splitSign cs).1 ((splitSign cs).2.takeWhile Char.isDigit)
        (rest2.takeWhile Char.isDigit) (rest2.dropWhile Char.isDigit)
  | rest1 =>
      mkFloat (splitSign cs).1 ((splitSign cs).2.takeWhile Char.isDigit) [] rest1

/-- Model of Python's `float(str)` on finite decimal literals (whitespace,
sign, digits, optional point and exponent).  `inf`/`nan` and digit-group
underscores are not modelled; the logs never contain them.  `none` models
the `ValueError`. -/
def pyFloat? (s : String) : Option ℚ :=
  pyFloatAux (((s.toList.dropWhile isPySpace).reverse.dropWhile isPySpace).reverse)

/-- Model of Python's `int(str)` (used on header selection values). -/
def pyInt? (s : String) : Option ℤ :=
  parseSignedDigits (((s.toList.dropWhile isPySpace).reverse.dropWhile
    isPySpace).reverse)

/-- Python string slice `s[start:start+len]`. -/
def pySlice (s : String) (start len : ℕ) : String :=
  String.mk ((s.toList.drop start).take len)

/-- The loop of the source's `nibble_numbers` (lines 117-119), cutting field
`i, i+1, ...` while `k` fields remain; `none` models the `ValueError` raised
by `float(...)` aborting the call. -/
def nibbleAux (line : String) (width : ℕ) : ℕ → ℕ → Option (List ℚ)
  | _, 0 => some []
  | i, k + 1 =>
      match pyFloat? (pySlice line (i * width) width) with
      | none => none
      | some v =>
          match nibbleAux line width (i + 1) k with
          | none => none
          | some vs => some (v :: vs)

/-- Model of the source's `nibble_numbers(input_line, count, length)`
(lines 105-120): parse `count` fixed-width fields of `width` characters cut
left-to-right from the start of the line. -/
def nibble_numbers (line : String) (count width : ℕ) : Option (List ℚ) :=
  nibbleAux line width 0 count

/-! ### The marker-scanning loops of the m41 section scanner
(source lines 160, 165, 175, 185, 188, 192, 198, 203, 213, 223, 226, 230) -/

/-- Model of Python's `str.startswith`. -/
def pyStartswith (s pre : String) : Bool := pre.toList.isPrefixOf s.toList

/-- Terminating behaviour of a marker loop
`while not line.startswith(marker): line = read_file.readline()`, reading
from current line `cur` and unread lines `rest`.  At end-of-file Python's
`readline` returns `''` forever, so when no line matches the loop never
terminates; `none` encodes that non-terminating case. -/
def scanFor (marker cur : String) : List String → Option (String × List String)
  | [] => if pyStartswith cur marker then some (cur, []) else none
  | l :: ls =>
      if pyStartswith cur marker then some (cur, l :: ls)
      else scanFor marker l ls

/-- Observable outcome of a marker loop: either the loop exits at a matching
line (with the lines still unread), or it hangs forever.  The source has no
raising path at all: no exception outcome exists. -/
inductive ScanOutcome
  | found (cur : String) (rest : List String)
  | hangs
  deriving DecidableEq

/-- Run a marker loop to its outcome. -/
def scanRun (marker cur : String) (rest : List String) : ScanOutcome :=
  match scanFor marker cur rest with
  | some p => ScanOutcome.found p.1 p.2
  | none => ScanOutcome.hangs

/-- One iteration of a marker loop as a state transformer on
(current line, unread lines); a matching current line is a fixed point
(the loop has exited), and at end-of-file `readline` yields `''`. -/
def scanStep (marker : String) : String × List String → String × List String
  | (cur, rest) =>
    if pyStartswith cur marker then (cur, rest)
    else
      match rest with
      | [] => ("", [])
      | l :: ls => (l, ls)

/-! ### The descriptive-string assembly (source lines 282-285 and 311-323) -/

/-- Python `!=` between a float and a string: objects of unrelated types are
never equal in Python, so this comparison is always `True`. -/
def pyFloatNeStr (_ : ℚ) (_ : String) : Bool := true

/-- Source lines 282-285: the `_pd_proc_ls_special_details` assembly.
`zero` is `shift['zero']` (a float parsed by `nibble_numbers`, line 162) and
`zeroSu` is `shift_su['zero']`; the source compares the float against the
string literal `'0.000000'`. -/
def special_details (zero zeroSu : ℚ) : String :=
  if pyFloatNeStr zero ("0.000000")
  then "zero-point correction: " ++ iucr_string (zero, zeroSu)
  else "\n"

/-- Source lines 311-323: the `_pd_proc_ls_background_function` assembly.
The `for i in range(2, int(select['bckgnum']) + 1)` loop and the final `']'`
append are outside every `if` in the source and are modelled accordingly.
List indexing `background[i-1]` is modelled with `getD` (the source only
indexes in bounds when the selections match the parsed lists). -/
def background_function (manbckg bckgtype bckgnum : String)
    (background background_su : List ℚ) : String :=
  let s1 : String := if manbckg = "1"
    then "\n" ++ "manual background (visual estimation, unrefined)" else "\n"
  let s2 : String := if manbckg = "1" ∧ bckgtype = "1"
    then s1 ++ " interpolated by " else s1
  let s3 : String := if bckgtype = "1"
    then s2 ++ bckgnum ++ " Legendre polynomials [1st: "
      ++ iucr_string (background.getD 0 0, background_su.getD 0 0)
    else s2
  (List.range' 2 (((pyInt? bckgnum).getD 0).toNat - 1)).foldl
    (fun s i => s ++ ", " ++ ordinal i ++ ": "
      ++ iucr_string (background.getD (i - 1) 0, background_su.getD (i - 1) 0))
    s3
  ++ "]"

/-! ### Evaluation helpers for concrete inputs -/

theorem sig_pos_eval (su : ℚ) (p : ℤ) (h0 : 0 < su) (h1 : (10:ℚ)^p ≤ su)
    (h2 : su < (10:ℚ)^(p+1)) : sig_pos su = p := by
  unfold sig_pos
  rw [abs_of_nonneg (le_of_lt h0)]
  exact qLog10_unique su p h0 (by rw [pow10_eq_zpow]; exact h1)
    (by rw [pow10_eq_zpow]; exact h2)

theorem pyRound_eval (q : ℚ) (d : ℤ) (P : ℚ) (m : ℤ) (r : ℚ)
    (hP : (10:ℚ)^d = P) (hm : roundHalfEven (q * P) = m) (hr : (m:ℚ)/P = r) :
    pyRound q d = r := by
  unfold pyRound
  rw [pow10_eq_zpow, hP, hm, hr]

theorem formatFixed_eval (q : ℚ) (dec : ℕ) (P : ℚ) (m : ℤ)
    (hP : (10:ℚ)^(dec:ℤ) = P) (hm : roundHalfEven (q * P) = m) :
    formatFixed q dec = formatFixedInt m dec := by
  unfold formatFixed
  rw [pow10_eq_zpow, hP, hm]

theorem sig_3_eval (su : ℚ) (t : ℤ)
    (ht : qTrunc (|su| * pow10 (2 - sig_pos su)) = t) : sig_3 su = (t:ℚ)/1000 := by
  rw [sig_3_formula, ht]

theorem iucrRound_b1 (a su : ℚ) (h : sig_3 su < 195/1000) :
    iucrRound a su
      = (pyRound a (1 - sig_pos su), pyRound |su| (1 - sig_pos su), sig_pos su, 2) := by
  unfold iucrRound
  rw [if_pos h]

theorem iucrRound_b2 (a su : ℚ) (h1 : ¬ sig_3 su < 195/1000)
    (h2 : sig_3 su < 950/1000) :
    iucrRound a su
      = (pyRound a (-sig_pos su), pyRound |su| (-sig_pos su), sig_pos su, 1) := by
  unfold iucrRound
  rw [if_neg h1, if_pos h2]

theorem iucrRound_b3 (a su : ℚ) (h1 : ¬ sig_3 su < 195/1000)
    (h2 : ¬ sig_3 su < 950/1000) :
    iucrRound a su
      = (pyRound a (1 - (sig_pos su + 1)), pyRound |su| (1 - (sig_pos su + 1)),
        sig_pos su + 1, 2) := by
  unfold iucrRound
  rw [if_neg h1, if_neg h2]

theorem iucr_string_core (a su : ℚ) (hsu : su ≠ 0) (neg : Bool)
    (hneg : decide (a < 0) = neg) :
    iucr_string (a, su) = iucr_core neg a su := by
  unfold iucr_string
  rw [if_neg hsu, hneg]

/-! ### Facts about the marker-scanning loops -/

theorem str_eq_empty_of_toList (m : String) (h : m.toList = []) : m = "" := by
  cases m with
  | mk d => cases h; rfl

theorem pyStartswith_empty (m : String) (h : m ≠ "") :
    pyStartswith ("") m = false := by
  unfold pyStartswith
  cases hm : m.toList with
  | nil => exact absurd (str_eq_empty_of_toList m hm) h
  | cons c cs => rfl

theorem scanFor_none (marker : String) :
    ∀ (rest : List String) (cur : String),
      pyStartswith cur marker = false →
      (∀ l ∈ rest, pyStartswith l marker = false) →
      scanFor marker cur rest = none := by
  intro rest
  induction rest with
  | nil =>
      intro cur h1 _
      unfold scanFor
      rw [h1]
      rfl
  | cons l ls ih =>
      intro cur h1 h2
      unfold scanFor
      rw [h1]
      simp only [Bool.false_eq_true, if_false]
      exact ih l (h2 l (by simp)) (fun x hx => h2 x (by simp [hx]))

theorem scanStep_eq (marker cur : String) (rest : List String) :
    scanStep marker (cur, rest)
      = if pyStartswith cur marker = true then (cur, rest)
        else match rest with
          | [] => (("" : String), ([] : List String))
          | l :: ls => (l, ls) := by
  cases rest with
  | nil => rfl
  | cons l ls => rfl

theorem scanStep_pres (marker : String) (hm : marker ≠ "")
    (cur : String) (rest : List String)
    (h1 : pyStartswith cur marker = false)
    (h2 : ∀ l ∈ rest, pyStartswith l marker = false) :
    pyStartswith (scanStep marker (cur, rest)).1 marker = false ∧
      ∀ l ∈ (scanStep marker (cur, rest)).2, pyStartswith l marker = false := by
  rw [scanStep_eq, h1]
  simp only [Bool.false_eq_true, if_false]
  cases rest with
  | nil =>
      exact ⟨pyStartswith_empty marker hm, by simp⟩
  | cons l ls =>
      exact ⟨h2 l (by simp), fun x hx => h2 x (by simp [hx])⟩

theorem scanStep_stuck (marker : String) (hm : marker ≠ "") :
    ∀ (n : ℕ) (cur : String) (rest : List String),
      pyStartswith cur marker = false →
      (∀ l ∈ rest, pyStartswith l marker = false) →
      pyStartswith ((scanStep marker)^[n] (cur, rest)).1 marker = false := by
  intro n
  induction n with
  | zero => intro cur rest h1 _; simpa using h1
  | succ k ih =>
      intro cur rest h1 h2
      rw [Function.iterate_succ_apply]
      obtain ⟨g1, g2⟩ := scanStep_pres marker hm cur rest h1 h2
      cases hs : scanStep marker (cur, rest) with
      | mk cur2 rest2 =>
          rw [hs] at g1 g2
          exact ih cur2 rest2 g1 g2

/-- Claim C3 counterexample: on a log in which the `# Shift` marker never
appears, the scanner's marker loop does not terminate by raising anything:
it hangs (the outcome space of the source loop has no raising path at all),
refuting "terminates by raising a fatal ParseError (MissingSectionError)". -/
theorem claim_C3_counterexample :
    scanRun ("# Shift") ("header stuff") [("bckgnum 2"), ("end")]
      = ScanOutcome.hangs := by decide

/-- Claim C3 (amended): when a required section marker never appears before
end-of-file, the marker loop raises nothing and never terminates: `readline`
returns `''` forever at EOF, the guard never matches, and no iterate of the
loop ever reaches a matching line, so the scan produces no (partial)
extraction result. -/
theorem claim_C3 (marker cur : String) (rest : List String)
    (hm : marker ≠ "")
    (hall : ∀ l ∈ cur :: rest, pyStartswith l marker = false) :
    scanRun marker cur rest = ScanOutcome.hangs ∧
    ∀ n : ℕ, pyStartswith ((scanStep marker)^[n] (cur, rest)).1 marker = false := by
  have h1 : pyStartswith cur marker = false := hall cur (by simp)
  have h2 : ∀ l ∈ rest, pyStartswith l marker = false :=
    fun l hl => hall l (by simp [hl])
  constructor
  · unfold scanRun
    rw [scanFor_none marker rest cur h1 h2]
  · intro n
    exact scanStep_stuck marker hm n cur rest h1 h2

/-- Witness for the amended claim C3 at a concrete input. -/
theorem claim_C3_witness :
    scanRun ("# Background") ("phase intro") [("skipfrto 1 2")]
      = ScanOutcome.hangs :=
  (claim_C3 ("# Background") ("phase intro") [("skipfrto 1 2")]
    (by decide) (by decide)).1

/-! ### Facts about `nibble_numbers` -/

theorem nibbleAux_ok (line : String) (width : ℕ) :
    ∀ (k i : ℕ) (f : ℕ → ℚ),
      (∀ j, j < k → pyFloat? (pySlice line ((i + j) * width) width) = some (f j)) →
      nibbleAux line width i k = some ((List.range k).map f) := by
  intro k
  induction k with
  | zero => intro i f _; rfl
  | succ m ih =>
      intro i f h
      have h0 : pyFloat? (pySlice line (i * width) width) = some (f 0) := by
        have := h 0 (Nat.succ_pos m)
        simpa using this
      have hrec : nibbleAux line width (i + 1) m
          = some ((List.range m).map (fun j => f (j + 1))) := by
        apply ih
        intro j hj
        have := h (j + 1) (by omega)
        rwa [show i + (j + 1) = i + 1 + j by omega] at this
      rw [nibbleAux, h0, hrec]
      rw [List.range_succ_eq_map, List.map_cons, List.map_map]
      rfl

theorem nibbleAux_err (line : String) (width : ℕ) :
    ∀ (k i j : ℕ), j < k →
      pyFloat? (pySlice line ((i + j) * width) width) = none →
      nibbleAux line width i k = none := by
  intro k
  induction k with
  | zero => intro i j hj; omega
  | succ m ih =>
      intro i j hj hnone
      rw [nibbleAux]
      cases j with
      | zero =>
          rw [show pyFloat? (pySlice line (i * width) width) = none from by
            simpa using hnone]
      | succ jj =>
          cases hparse : pyFloat? (pySlice line (i * width) width) with
          | none => rfl
          | some v =>
              rw [ih (i + 1) jj (by omega) (by
                rwa [show i + 1 + jj = i + (jj + 1) by omega])]

/-- Parse of the 3-character string "1.5". -/
theorem pyFloat_15 : pyFloat? ("1.5") = some (3/2) := by
  have h0 : pyFloat? ("1.5")
      = some (1 * ((digitsVal (("1").toList) : ℚ)
          + (digitsVal (("5").toList) : ℚ) / pow10N 1)) := rfl
  rw [h0]
  congr 1
  rw [show digitsVal (("1").toList) = 1 from rfl,
    show digitsVal (("5").toList) = 5 from rfl,
    show pow10N 1 = 10 from by norm_num [pow10N]]
  push_cast
  norm_num

/-- Parse of the 3-character string "3.0". -/
theorem pyFloat_30 : pyFloat? ("3.0") = some 3 := by
  have h0 : pyFloat? ("3.0")
      = some (1 * ((digitsVal (("3").toList) : ℚ)
          + (digitsVal (("0").toList) : ℚ) / pow10N 1)) := rfl
  rw [h0]
  congr 1
  rw [show digitsVal (("3").toList) = 3 from rfl,
    show digitsVal (("0").toList) = 0 from rfl,
    show pow10N 1 = 10 from by norm_num [pow10N]]
  push_cast
  norm_num

/-- Claim C6 counterexample: on the 3-character line "1.5" with `count = 1`
and `width = 9` — a line strictly shorter than `count*width` — the source's
`nibble_numbers` succeeds and returns `[1.5]` instead of raising a
FormatError: Python's slice simply truncates and `float("1.5")` parses. -/
theorem claim_C6_counterexample :
    nibble_numbers ("1.5") 1 9 = some [3/2] ∧ ("1.5").length < 1 * 9 := by
  constructor
  · have h := nibbleAux_ok ("1.5") 9 1 0 (fun _ => (3/2 : ℚ)) (fun j hj => by
      have hj0 : j = 0 := by omega
      subst hj0
      rw [show (0 + 0) * 9 = 0 by omega,
        show pySlice ("1.5") 0 9 = ("1.5") from by decide]
      exact pyFloat_15)
    unfold nibble_numbers
    rw [h]
    rfl
  · decide

/-- Claim C6 (amended): `nibble_numbers` applied to a line of exactly
`count*width` characters whose width-slices each parse as a number returns
exactly `count` floats, the `i`-th being the parse of the `i`-th slice; it
raises the FormatError (`none`) exactly when some slice — possibly truncated
or empty because the line is short — is not a valid number.  (A line shorter
than `count*width` does *not* always raise: see the counterexample.) -/
theorem claim_C6 :
    (∀ (line : String) (count width : ℕ) (f : ℕ → ℚ),
      line.length = count * width →
      (∀ j, j < count → pyFloat? (pySlice line (j * width) width) = some (f j)) →
      nibble_numbers line count width = some ((List.range count).map f) ∧
        ((List.range count).map f).length = count) ∧
    (∀ (line : String) (count width j : ℕ), j < count →
      pyFloat? (pySlice line (j * width) width) = none →
      nibble_numbers line count width = none) := by
  constructor
  · intro line count width f _ hparse
    constructor
    · unfold nibble_numbers
      apply nibbleAux_ok
      intro j hj
      simpa using hparse j hj
    · simp
  · intro line count width j hj hnone
    unfold nibble_numbers
    exact nibbleAux_err line width count 0 j hj (by simpa using hnone)

/-- Witness for claim C6 at the 6-character line "1.53.0", `count = 2`,
`width = 3`: both slices parse and the two floats come back in order. -/
theorem claim_C6_witness :
    nibble_numbers ("1.53.0") 2 3
      = some ((List.range 2).map (fun j => if j = 0 then (3/2 : ℚ) else 3)) ∧
    ((List.range 2).map (fun j => if j = 0 then (3/2 : ℚ) else 3)).length = 2 :=
  claim_C6.1 ("1.53.0") 2 3 (fun j => if j = 0 then (3/2 : ℚ) else 3)
    (by decide)
    (fun j hj => by
      match j, hj with
      | 0, _ =>
          rw [show (0 * 3 : ℕ) = 0 from rfl,
            show pySlice ("1.53.0") 0 3 = ("1.5") from by decide]
          simpa using pyFloat_15
      | 1, _ =>
          rw [show pySlice ("1.53.0") (1 * 3) 3 = ("3.0") from by decide]
          simpa using pyFloat_30)

/-- Claim C7: the `for` loop over the 2nd..`bckgnum`-th coefficients and the
closing `']'` are appended outside every background `if` in the source, so
with all background flags off (`manbckg = "0"`, `bckgtype = "0"`,
`bckgnum = "1"`) the assembled field is `"\n]"`, not the bare newline
placeholder the spec requires when no manual/interpolated background is
selected. -/
theorem claim_C7 :
    background_function ("0") ("0") ("1") [5] [1] = "\n]" ∧
    background_function ("0") ("0") ("1") [5] [1] ≠ "\n" := by
  constructor
  · decide
  · decide

/-- Claim C9: for every positive `n`, `ordinal n` is the decimal
representation of `n` followed by the standard English ordinal suffix
(st/nd/rd/th with 11th-13th irregular); in particular on
1,2,3,4,11,12,13,21,22,23 it yields 1st,2nd,3rd,4th,11th,12th,13th,21st,
22nd,23rd. -/
theorem claim_C9 :
    (∀ n : ℕ, 0 < n → ordinal n = toString n ++ englishSuffix n) ∧
    ordinal 1 = "1st" ∧ ordinal 2 = "2nd" ∧ ordinal 3 = "3rd" ∧
    ordinal 4 = "4th" ∧ ordinal 11 = "11th" ∧ ordinal 12 = "12th" ∧
    ordinal 13 = "13th" ∧ ordinal 21 = "21st" ∧ ordinal 22 = "22nd" ∧
    ordinal 23 = "23rd" := by
  refine ⟨?_, by decide, by decide, by decide, by decide, by decide, by decide,
    by decide, by decide, by decide, by decide⟩
  intro n _
  unfold ordinal
  rw [ordinalSuffix_mod, englishSuffix_mod]
  exact congrArg (fun s => toString n ++ s)
    (suffix_agree (n % 100) (Nat.mod_lt n (by norm_num)))

/-- Witness for claim C9's universally quantified part at `n = 7`. -/
theorem claim_C9_witness : ordinal 7 = toString 7 ++ englishSuffix 7 :=
  claim_C9.1 7 (by norm_num)

/-! ### Idempotence of the rounding stage (claim C8) -/

theorem pow10_one : pow10 1 = 10 := by rw [pow10_eq_zpow]; norm_num

theorem pow10_zero : pow10 0 = 1 := by rw [pow10_eq_zpow]; norm_num

theorem pow10_neg (e : ℤ) : pow10 (-e) = (pow10 e)⁻¹ := by
  rw [pow10_eq_zpow, pow10_eq_zpow, zpow_neg]

theorem div_pow10 (x : ℚ) (e : ℤ) : x / pow10 e = x * pow10 (-e) := by
  rw [pow10_neg, div_eq_mul_inv]

theorem qTrunc_intCast (m : ℤ) : qTrunc (m : ℚ) = m := by
  unfold qTrunc
  split
  · exact Int.floor_intCast m
  · rw [← Int.cast_neg, Int.floor_intCast]
    omega

theorem qTrunc_floor (q : ℚ) (h : 0 ≤ q) : qTrunc q = ⌊q⌋ := by
  unfold qTrunc
  rw [if_pos h]

/-- The rounded s.u. produced by a branch with rounding exponent `d` equals
`roundHalfEven (|su| * pow10 d) * pow10 (-d)`. -/
theorem pyRound_as_mul (q : ℚ) (d : ℤ) :
    pyRound q d = (roundHalfEven (q * pow10 d) : ℚ) * pow10 (-d) := by
  unfold pyRound
  rw [div_pow10]

/-- Re-rounding a value already produced by `pyRound` at the same number of
decimal places leaves it unchanged. -/
theorem pyRound_idem (q : ℚ) (d : ℤ) :
    pyRound (pyRound q d) d = pyRound q d :=
  pyRound_eq_self _ _ _ (pyRound_mul q d)

/-- A value of the form `r * 10^(p-1)` with `10 ≤ r ≤ 19` (the shape of every
branch-1 and carry-branch rounded s.u. at final exponent `p`) is a fixed
point of the rounding stage, landing again in branch 1 with `sig_len = 2`. -/
theorem iucrRound_fixed_b1 (avg' su' : ℚ) (p : ℤ) (r : ℤ)
    (hsu : su' = (r:ℚ) * pow10 (p - 1)) (hr1 : 10 ≤ r) (hr2 : r ≤ 19)
    (havg : pyRound avg' (1 - p) = avg') :
    iucrRound avg' su' = (avg', su', p, 2) := by
  have hP := pow10_pos (p - 1)
  have hr1Q : (10:ℚ) ≤ (r:ℚ) := by exact_mod_cast hr1
  have hr2Q : (r:ℚ) ≤ 19 := by exact_mod_cast hr2
  have hpos : 0 < su' := by
    rw [hsu]
    positivity
  have habs : |su'| = su' := abs_of_nonneg (le_of_lt hpos)
  have hp10 : pow10 p = 10 * pow10 (p - 1) := by
    rw [show p = 1 + (p - 1) by ring, pow10_add, pow10_one]
    ring_nf
  have hp10' : pow10 (p + 1) = 100 * pow10 (p - 1) := by
    rw [show p + 1 = 1 + 1 + (p - 1) by ring, pow10_add, pow10_add, pow10_one]
    ring
  have hlog : sig_pos su' = p := by
    unfold sig_pos
    rw [habs]
    apply qLog10_unique su' p hpos
    · rw [hsu, hp10]
      apply mul_le_mul_of_nonneg_right hr1Q (le_of_lt hP)
    · rw [hsu, hp10']
      have : (r:ℚ) < 100 := by linarith
      exact mul_lt_mul_of_pos_right (by linarith) hP
  have hmul : pow10 (p - 1) * pow10 (2 - p) = 10 := by
    rw [← pow10_add, show p - 1 + (2 - p) = 1 by ring, pow10_one]
  have ht2 : qTrunc (|su'| * pow10 (2 - sig_pos su')) = 10 * r := by
    rw [habs, hlog, hsu, mul_assoc, hmul,
      show (r:ℚ) * 10 = ((10 * r : ℤ) : ℚ) by push_cast; ring]
    exact qTrunc_intCast _
  have hs3 : sig_3 su' = ((10 * r : ℤ) : ℚ) / 1000 := sig_3_eval su' _ ht2
  have hcond : sig_3 su' < 195/1000 := by
    rw [hs3]
    have : ((10 * r : ℤ) : ℚ) ≤ 190 := by exact_mod_cast by omega
    linarith
  rw [iucrRound_b1 avg' su' hcond, hlog, habs, havg]
  have hfix : pyRound su' (1 - p) = su' := by
    apply pyRound_eq_self su' (1 - p) r
    rw [hsu, mul_assoc, ← pow10_add, show p - 1 + (1 - p) = 0 by ring,
      pow10_zero, mul_one]
  rw [hfix]

/-- A value of the form `r * 10^p` with `2 ≤ r ≤ 9` (the shape of every
branch-2 rounded s.u. at exponent `p`) is a fixed point of the rounding
stage, landing again in branch 2 with `sig_len = 1`. -/
theorem iucrRound_fixed_b2 (avg' su' : ℚ) (p : ℤ) (r : ℤ)
    (hsu : su' = (r:ℚ) * pow10 p) (hr1 : 2 ≤ r) (hr2 : r ≤ 9)
    (havg : pyRound avg' (-p) = avg') :
    iucrRound avg' su' = (avg', su', p, 1) := by
  have hP := pow10_pos p
  have hr1Q : (2:ℚ) ≤ (r:ℚ) := by exact_mod_cast hr1
  have hr2Q : (r:ℚ) ≤ 9 := by exact_mod_cast hr2
  have hpos : 0 < su' := by
    rw [hsu]
    positivity
  have habs : |su'| = su' := abs_of_nonneg (le_of_lt hpos)
  have hp10' : pow10 (p + 1) = 10 * pow10 p := by
    rw [show p + 1 = 1 + p by ring, pow10_add, pow10_one]
  have hlog : sig_pos su' = p := by
    unfold sig_pos
    rw [habs]
    apply qLog10_unique su' p hpos
    · rw [hsu]
      nlinarith
    · rw [hsu, hp10']
      nlinarith
  have hmul : pow10 p * pow10 (2 - p) = 100 := by
    rw [← pow10_add, show p + (2 - p) = 2 by ring]
    rw [pow10_eq_zpow]
    norm_num
  have ht2 : qTrunc (|su'| * pow10 (2 - sig_pos su')) = 100 * r := by
    rw [habs, hlog, hsu, mul_assoc, hmul,
      show (r:ℚ) * 100 = ((100 * r : ℤ) : ℚ) by push_cast; ring]
    exact qTrunc_intCast _
  have hs3 : sig_3 su' = ((100 * r : ℤ) : ℚ) / 1000 := sig_3_eval su' _ ht2
  have hcond1 : ¬ sig_3 su' < 195/1000 := by
    rw [hs3]
    have : (195 : ℚ) ≤ ((100 * r : ℤ) : ℚ) := by exact_mod_cast by omega
    push_neg
    linarith
  have hcond2 : sig_3 su' < 950/1000 := by
    rw [hs3]
    have : ((100 * r : ℤ) : ℚ) ≤ 900 := by exact_mod_cast by omega
    linarith
  rw [iucrRound_b2 avg' su' hcond1 hcond2, hlog, habs, havg]
  have hfix : pyRound su' (-p) = su' := by
    apply pyRound_eq_self su' (-p) r
    rw [hsu, mul_assoc, ← pow10_add, show p + -p = 0 by ring, pow10_zero,
      mul_one]
  rw [hfix]

/-- The rounding stage is idempotent — its output pair is its own fixed
point — and the rounded s.u. it produces is strictly positive. -/
theorem iucrRound_idem (a su : ℚ) (hsu : su ≠ 0) :
    0 < (iucrRound a su).2.1 ∧
    iucrRound (iucrRound a su).1 (iucrRound a su).2.1 = iucrRound a su := by
  have hS : 0 < |su| := abs_pos.2 hsu
  have hps : sig_pos su = qLog10 |su| := rfl
  obtain ⟨hlo, hhi⟩ := qLog10_spec |su| hS
  rw [← hps] at hlo hhi
  have harg0 : 0 ≤ |su| * pow10 (2 - sig_pos su) :=
    le_of_lt (mul_pos hS (pow10_pos _))
  have htfl : qTrunc (|su| * pow10 (2 - sig_pos su))
      = ⌊|su| * pow10 (2 - sig_pos su)⌋ := qTrunc_floor _ harg0
  have htle : ((qTrunc (|su| * pow10 (2 - sig_pos su)) : ℤ) : ℚ)
      ≤ |su| * pow10 (2 - sig_pos su) := by
    rw [htfl]; exact Int.floor_le _
  have htlt : |su| * pow10 (2 - sig_pos su)
      < ((qTrunc (|su| * pow10 (2 - sig_pos su)) : ℤ) : ℚ) + 1 := by
    rw [htfl]; exact Int.lt_floor_add_one _
  have harg_lo : (100:ℚ) ≤ |su| * pow10 (2 - sig_pos su) := by
    calc (100:ℚ) = pow10 (sig_pos su) * pow10 (2 - sig_pos su) := by
          rw [← pow10_add, show sig_pos su + (2 - sig_pos su) = 2 by ring,
            pow10_eq_zpow]
          norm_num
      _ ≤ |su| * pow10 (2 - sig_pos su) :=
          mul_le_mul_of_nonneg_right hlo (le_of_lt (pow10_pos _))
  have harg_hi : |su| * pow10 (2 - sig_pos su) < 1000 := by
    calc |su| * pow10 (2 - sig_pos su)
        < pow10 (sig_pos su + 1) * pow10 (2 - sig_pos su) :=
          mul_lt_mul_of_pos_right hhi (pow10_pos _)
      _ = 1000 := by
          rw [← pow10_add, show sig_pos su + 1 + (2 - sig_pos su) = 3 by ring,
            pow10_eq_zpow]
          norm_num
  have ht100 : 100 ≤ qTrunc (|su| * pow10 (2 - sig_pos su)) := by
    have h1 : (100:ℚ) < ((qTrunc (|su| * pow10 (2 - sig_pos su)) : ℤ) : ℚ) + 1 :=
      lt_of_le_of_lt harg_lo htlt
    have h2 : (100:ℤ) < qTrunc (|su| * pow10 (2 - sig_pos su)) + 1 := by
      exact_mod_cast h1
    omega
  have ht999 : qTrunc (|su| * pow10 (2 - sig_pos su)) ≤ 999 := by
    have h1 : ((qTrunc (|su| * pow10 (2 - sig_pos su)) : ℤ) : ℚ) < 1000 :=
      lt_of_le_of_lt htle harg_hi
    have h2 : (qTrunc (|su| * pow10 (2 - sig_pos su)) : ℤ) < 1000 := by
      exact_mod_cast h1
    omega
  have hform : sig_3 su
      = ((qTrunc (|su| * pow10 (2 - sig_pos su)) : ℤ) : ℚ) / 1000 :=
    sig_3_formula su
  by_cases hb1 : sig_3 su < 195/1000
  · -- branch 1: two significant digits, exponent unchanged
    have ht194 : qTrunc (|su| * pow10 (2 - sig_pos su)) ≤ 194 := by
      have h1 : ((qTrunc (|su| * pow10 (2 - sig_pos su)) : ℤ) : ℚ) < 195 := by
        rw [hform] at hb1
        linarith
      have h2 : (qTrunc (|su| * pow10 (2 - sig_pos su)) : ℤ) < 195 := by
        exact_mod_cast h1
      omega
    have hsplit : pow10 (2 - sig_pos su) = pow10 (1 - sig_pos su) * 10 := by
      rw [← pow10_one, ← pow10_add]
      congr 1
      ring
    have hu_lo : (10:ℚ) ≤ |su| * pow10 (1 - sig_pos su) := by
      calc (10:ℚ) = pow10 (sig_pos su) * pow10 (1 - sig_pos su) := by
            rw [← pow10_add, show sig_pos su + (1 - sig_pos su) = 1 by ring,
              pow10_one]
        _ ≤ |su| * pow10 (1 - sig_pos su) :=
            mul_le_mul_of_nonneg_right hlo (le_of_lt (pow10_pos _))
    have hu_hi : |su| * pow10 (1 - sig_pos su) < 39/2 := by
      have h195 : ((qTrunc (|su| * pow10 (2 - sig_pos su)) : ℤ) : ℚ) + 1 ≤ 195 := by
        exact_mod_cast (by omega : qTrunc (|su| * pow10 (2 - sig_pos su)) + 1 ≤ 195)
      have h1 : |su| * pow10 (1 - sig_pos su) * 10 < 195 := by
        calc |su| * pow10 (1 - sig_pos su) * 10
            = |su| * pow10 (2 - sig_pos su) := by rw [hsplit]; ring
          _ < _ + 1 := htlt
          _ ≤ 195 := h195
      linarith
    have hrlo := le_roundHalfEven (|su| * pow10 (1 - sig_pos su))
    have hrhi := roundHalfEven_le (|su| * pow10 (1 - sig_pos su))
    have h9 : (9:ℚ)
        < (roundHalfEven (|su| * pow10 (1 - sig_pos su)) : ℚ) := by linarith
    have hr1 : 10 ≤ roundHalfEven (|su| * pow10 (1 - sig_pos su)) := by
      have : (9:ℤ) < roundHalfEven (|su| * pow10 (1 - sig_pos su)) := by
        exact_mod_cast h9
      omega
    have hr2 : roundHalfEven (|su| * pow10 (1 - sig_pos su)) ≤ 19 := by
      have h20 : (roundHalfEven (|su| * pow10 (1 - sig_pos su)) : ℚ) < 20 := by
        linarith
      have : roundHalfEven (|su| * pow10 (1 - sig_pos su)) < 20 := by
        exact_mod_cast h20
      omega
    have hsu'eq : pyRound |su| (1 - sig_pos su)
        = (roundHalfEven (|su| * pow10 (1 - sig_pos su)) : ℚ)
          * pow10 (sig_pos su - 1) := by
      rw [pyRound_as_mul, show -(1 - sig_pos su) = sig_pos su - 1 by ring]
    rw [iucrRound_b1 a su hb1]
    constructor
    · show (0:ℚ) < pyRound |su| (1 - sig_pos su)
      rw [hsu'eq]
      exact mul_pos (by linarith) (pow10_pos _)
    · apply iucrRound_fixed_b1 _ _ (sig_pos su)
        (roundHalfEven (|su| * pow10 (1 - sig_pos su)))
      · show pyRound |su| (1 - sig_pos su) = _
        exact hsu'eq
      · exact hr1
      · exact hr2
      · exact pyRound_idem a (1 - sig_pos su)
  · by_cases hb2 : sig_3 su < 950/1000
    · -- branch 2: one significant digit
      have ht195 : 195 ≤ qTrunc (|su| * pow10 (2 - sig_pos su)) := by
        have h1 : (195:ℚ)/1000 ≤ ((qTrunc (|su| * pow10 (2 - sig_pos su)) : ℤ) : ℚ) / 1000 := by
          rw [← hform]
          exact not_lt.1 hb1
        have h2 : (195:ℚ) ≤ ((qTrunc (|su| * pow10 (2 - sig_pos su)) : ℤ) : ℚ) := by
          linarith
        exact_mod_cast h2
      have ht949 : qTrunc (|su| * pow10 (2 - sig_pos su)) ≤ 949 := by
        have h1 : ((qTrunc (|su| * pow10 (2 - sig_pos su)) : ℤ) : ℚ) < 950 := by
          rw [hform] at hb2
          linarith
        have h2 : (qTrunc (|su| * pow10 (2 - sig_pos su)) : ℤ) < 950 := by
          exact_mod_cast h1
        omega
      have hsplit : pow10 (2 - sig_pos su) = pow10 (-sig_pos su) * 100 := by
        rw [show (100:ℚ) = pow10 2 from by rw [pow10_eq_zpow]; norm_num,
          ← pow10_add]
        congr 1
        ring
      have hu_lo : (39:ℚ)/20 ≤ |su| * pow10 (-sig_pos su) := by
        have h195 : (195:ℚ) ≤ ((qTrunc (|su| * pow10 (2 - sig_pos su)) : ℤ) : ℚ) := by
          exact_mod_cast ht195
        have h1 : (195:ℚ) ≤ |su| * pow10 (-sig_pos su) * 100 := by
          calc (195:ℚ) ≤ _ := h195
            _ ≤ |su| * pow10 (2 - sig_pos su) := htle
            _ = |su| * pow10 (-sig_pos su) * 100 := by rw [hsplit]; ring
        linarith
      have hu_hi : |su| * pow10 (-sig_pos su) < 19/2 := by
        have h950 : ((qTrunc (|su| * pow10 (2 - sig_pos su)) : ℤ) : ℚ) + 1 ≤ 950 := by
          exact_mod_cast (by omega : qTrunc (|su| * pow10 (2 - sig_pos su)) + 1 ≤ 950)
        have h1 : |su| * pow10 (-sig_pos su) * 100 < 950 := by
          calc |su| * pow10 (-sig_pos su) * 100
              = |su| * pow10 (2 - sig_pos su) := by rw [hsplit]; ring
            _ < _ + 1 := htlt
            _ ≤ 950 := h950
        linarith
      have hrlo := le_roundHalfEven (|su| * pow10 (-sig_pos su))
      have hrhi := roundHalfEven_le (|su| * pow10 (-sig_pos su))
      have h1Q : (1:ℚ) < (roundHalfEven (|su| * pow10 (-sig_pos su)) : ℚ) := by
        linarith
      have hr1 : 2 ≤ roundHalfEven (|su| * pow10 (-sig_pos su)) := by
        have : (1:ℤ) < roundHalfEven (|su| * pow10 (-sig_pos su)) := by
          exact_mod_cast h1Q
        omega
      have hr2 : roundHalfEven (|su| * pow10 (-sig_pos su)) ≤ 9 := by
        have h10 : (roundHalfEven (|su| * pow10 (-sig_pos su)) : ℚ) < 10 := by
          linarith
        have : roundHalfEven (|su| * pow10 (-sig_pos su)) < 10 := by
          exact_mod_cast h10
        omega
      have hsu'eq : pyRound |su| (-sig_pos su)
          = (roundHalfEven (|su| * pow10 (-sig_pos su)) : ℚ)
            * pow10 (sig_pos su) := by
        rw [pyRound_as_mul, neg_neg]
      rw [iucrRound_b2 a su hb1 hb2]
      constructor
      · show (0:ℚ) < pyRound |su| (-sig_pos su)
        rw [hsu'eq]
        exact mul_pos (by linarith) (pow10_pos _)
      · apply iucrRound_fixed_b2 _ _ (sig_pos su)
          (roundHalfEven (|su| * pow10 (-sig_pos su)))
        · show pyRound |su| (-sig_pos su) = _
          exact hsu'eq
        · exact hr1
        · exact hr2
        · exact pyRound_idem a (-sig_pos su)
    · -- branch 3 (carry): lands in branch 1 at exponent sig_pos su + 1
      have ht950 : 950 ≤ qTrunc (|su| * pow10 (2 - sig_pos su)) := by
        have h1 : (950:ℚ)/1000 ≤ ((qTrunc (|su| * pow10 (2 - sig_pos su)) : ℤ) : ℚ) / 1000 := by
          rw [← hform]
          exact not_lt.1 hb2
        have h2 : (950:ℚ) ≤ ((qTrunc (|su| * pow10 (2 - sig_pos su)) : ℤ) : ℚ) := by
          linarith
        exact_mod_cast h2
      have hsplit : pow10 (2 - sig_pos su) = pow10 (-sig_pos su) * 100 := by
        rw [show (100:ℚ) = pow10 2 from by rw [pow10_eq_zpow]; norm_num,
          ← pow10_add]
        congr 1
        ring
      have hu_lo : (19:ℚ)/2 ≤ |su| * pow10 (-sig_pos su) := by
        have h950 : (950:ℚ) ≤ ((qTrunc (|su| * pow10 (2 - sig_pos su)) : ℤ) : ℚ) := by
          exact_mod_cast ht950
        have h1 : (950:ℚ) ≤ |su| * pow10 (-sig_pos su) * 100 := by
          calc (950:ℚ) ≤ _ := h950
            _ ≤ |su| * pow10 (2 - sig_pos su) := htle
            _ = |su| * pow10 (-sig_pos su) * 100 := by rw [hsplit]; ring
        linarith
      have hu_hi : |su| * pow10 (-sig_pos su) < 10 := by
        calc |su| * pow10 (-sig_pos su)
            < pow10 (sig_pos su + 1) * pow10 (-sig_pos su) :=
              mul_lt_mul_of_pos_right hhi (pow10_pos _)
          _ = 10 := by
              rw [← pow10_add, show sig_pos su + 1 + -sig_pos su = 1 by ring,
                pow10_one]
      have hr10 : roundHalfEven (|su| * pow10 (1 - (sig_pos su + 1))) = 10 := by
        rw [show 1 - (sig_pos su + 1) = -sig_pos su by ring]
        exact roundHalfEven_carry _ hu_lo hu_hi
      have hsu'eq : pyRound |su| (1 - (sig_pos su + 1))
          = ((10:ℤ) : ℚ) * pow10 (sig_pos su + 1 - 1) := by
        rw [pyRound_as_mul,
          show -(1 - (sig_pos su + 1)) = sig_pos su + 1 - 1 by ring, hr10]
      rw [iucrRound_b3 a su hb1 hb2]
      constructor
      · show (0:ℚ) < pyRound |su| (1 - (sig_pos su + 1))
        rw [hsu'eq]
        exact mul_pos (by norm_num) (pow10_pos _)
      · apply iucrRound_fixed_b1 _ _ (sig_pos su + 1) 10
        · show pyRound |su| (1 - (sig_pos su + 1)) = _
          exact hsu'eq
        · omega
        · omega
        · exact pyRound_idem a (1 - (sig_pos su + 1))

/-! ### Concrete evaluations of the engine (the spec's worked examples) -/

theorem sig_pos_56 : sig_pos (56/1000) = -2 := by
  unfold sig_pos
  rw [show |(56/1000 : ℚ)| = 56/1000 from abs_of_nonneg (by norm_num)]
  apply qLog10_unique _ _ (by norm_num)
  · rw [pow10_eq_zpow]; norm_num
  · rw [pow10_eq_zpow]; norm_num

theorem sig3_56 : sig_3 (56/1000) = 560/1000 := by
  have ht : qTrunc (|(56/1000 : ℚ)| * pow10 (2 - sig_pos (56/1000))) = 560 := by
    rw [show |(56/1000 : ℚ)| = 56/1000 from abs_of_nonneg (by norm_num),
      sig_pos_56, show ((2:ℤ) - -2) = 4 by decide,
      show pow10 4 = 10000 by rw [pow10_eq_zpow]; norm_num,
      show (56/1000 : ℚ) * 10000 = ((560:ℤ):ℚ) by norm_num]
    exact qTrunc_eq_of_nonneg _ 560 (by norm_num) (by norm_num) (by norm_num)
  rw [sig_3_formula, ht]
  norm_num

theorem sig3_56_ge : 195/1000 ≤ sig_3 (56/1000) := by
  rw [sig3_56]; norm_num

theorem sig3_56_lt : sig_3 (56/1000) < 950/1000 := by
  rw [sig3_56]; norm_num

theorem iucrRound_ex1 : iucrRound (1234/1000) (56/1000) = (123/100, 6/100, -2, 1) := by
  have hsu : pyRound |(56/1000 : ℚ)| (-sig_pos (56/1000)) = 6/100 := by
    rw [show |(56/1000 : ℚ)| = 56/1000 from abs_of_nonneg (by norm_num),
      sig_pos_56]
    unfold pyRound
    rw [show (-(-2) : ℤ) = 2 by decide,
      show pow10 2 = 100 by rw [pow10_eq_zpow]; norm_num,
      show (56/1000 : ℚ) * 100 = 28/5 by norm_num,
      roundHalfEven_eq_of_gt (28/5) 6 (by norm_num) (by norm_num)]
    norm_num
  have havg : pyRound (1234/1000) (-sig_pos (56/1000)) = 123/100 := by
    rw [sig_pos_56]
    unfold pyRound
    rw [show (-(-2) : ℤ) = 2 by decide,
      show pow10 2 = 100 by rw [pow10_eq_zpow]; norm_num,
      show (1234/1000 : ℚ) * 100 = 617/5 by norm_num,
      roundHalfEven_eq_of_lt (617/5) 123 (by norm_num) (by norm_num)]
    norm_num
  rw [iucrRound_b2 _ _ (not_lt.2 sig3_56_ge) sig3_56_lt, hsu, havg, sig_pos_56]

theorem iucr_example_1 : iucr_string (1234/1000, 56/1000) = "1.23(6)" := by
  rw [iucr_string_core (1234/1000) (56/1000) (by norm_num) false
      (decide_eq_false (by norm_num)),
    iucr_core_eq false _ _ _ _ _ _ iucrRound_ex1]
  unfold iucrRender
  rw [if_neg (by norm_num : ¬ (0:ℤ) < -2)]
  have havgs : formatFixed |(123/100 : ℚ)| ((-(-2) + ((1:ℕ):ℤ) - 1)).toNat
      = "1.23" := by
    rw [show ((-(-2) + ((1:ℕ):ℤ) - 1)).toNat = 2 by decide,
      show |(123/100 : ℚ)| = 123/100 from abs_of_nonneg (by norm_num)]
    unfold formatFixed
    rw [show (((2:ℕ):ℤ)) = (2:ℤ) by decide,
      show pow10 2 = 100 by rw [pow10_eq_zpow]; norm_num,
      show (123/100 : ℚ) * 100 = ((123:ℤ):ℚ) by norm_num,
      roundHalfEven_intCast]
    decide
  have hsus : formatFixed |(6/100 : ℚ) / pow10 (-2 - ((1:ℕ):ℤ) + 1)| 0
      = "6" := by
    rw [show ((-2 - ((1:ℕ):ℤ) + 1)) = -2 by decide,
      show pow10 (-2) = 1/100 by rw [pow10_eq_zpow]; norm_num,
      show |(6/100 : ℚ) / (1/100)| = ((6:ℤ):ℚ) by
        rw [show ((6/100 : ℚ) / (1/100)) = 6 by norm_num]
        exact abs_of_nonneg (by norm_num)]
    unfold formatFixed
    rw [show (((0:ℕ):ℤ)) = (0:ℤ) by decide,
      show pow10 0 = 1 by rw [pow10_eq_zpow]; norm_num,
      mul_one, roundHalfEven_intCast]
    decide
  rw [havgs, hsus]
  decide

theorem sig_pos_96 : sig_pos (96/10000) = -3 := by
  unfold sig_pos
  rw [show |(96/10000 : ℚ)| = 96/10000 from abs_of_nonneg (by norm_num)]
  apply qLog10_unique _ _ (by norm_num)
  · rw [pow10_eq_zpow]; norm_num
  · rw [pow10_eq_zpow]; norm_num

theorem sig3_96 : sig_3 (96/10000) = 960/1000 := by
  have ht : qTrunc (|(96/10000 : ℚ)| * pow10 (2 - sig_pos (96/10000))) = 960 := by
    rw [show |(96/10000 : ℚ)| = 96/10000 from abs_of_nonneg (by norm_num),
      sig_pos_96, show ((2:ℤ) - -3) = 5 by decide,
      show pow10 5 = 100000 by rw [pow10_eq_zpow]; norm_num,
      show (96/10000 : ℚ) * 100000 = ((960:ℤ):ℚ) by norm_num]
    exact qTrunc_eq_of_nonneg _ 960 (by norm_num) (by norm_num) (by norm_num)
  rw [sig_3_formula, ht]
  norm_num

theorem sig3_96_ge : 950/1000 ≤ sig_3 (96/10000) := by
  rw [sig3_96]; norm_num

theorem iucrRound_ex2 : iucrRound (1/100) (96/10000) = (1/100, 1/100, -2, 2) := by
  have hsu : pyRound |(96/10000 : ℚ)| (1 - (sig_pos (96/10000) + 1)) = 1/100 := by
    rw [show |(96/10000 : ℚ)| = 96/10000 from abs_of_nonneg (by norm_num),
      sig_pos_96, show ((1:ℤ) - (-3 + 1)) = 3 by decide]
    unfold pyRound
    rw [show pow10 3 = 1000 by rw [pow10_eq_zpow]; norm_num,
      show (96/10000 : ℚ) * 1000 = 48/5 by norm_num,
      roundHalfEven_eq_of_gt (48/5) 10 (by norm_num) (by norm_num)]
    norm_num
  have havg : pyRound (1/100) (1 - (sig_pos (96/10000) + 1)) = 1/100 := by
    rw [sig_pos_96, show ((1:ℤ) - (-3 + 1)) = 3 by decide]
    unfold pyRound
    rw [show pow10 3 = 1000 by rw [pow10_eq_zpow]; norm_num,
      show (1/100 : ℚ) * 1000 = ((10:ℤ):ℚ) by norm_num,
      roundHalfEven_intCast]
    norm_num
  rw [iucrRound_b3 _ _ (not_lt.2 (le_trans (by norm_num) sig3_96_ge))
      (not_lt.2 (le_trans (by norm_num) sig3_96_ge)), hsu, havg, sig_pos_96,
    show ((-3 : ℤ) + 1) = -2 by decide]

theorem iucr_example_2 : iucr_string (1/100, 96/10000) = "0.010(10)" := by
  rw [iucr_string_core (1/100) (96/10000) (by norm_num) false
      (decide_eq_false (by norm_num)),
    iucr_core_eq false _ _ _ _ _ _ iucrRound_ex2]
  unfold iucrRender
  rw [if_neg (by norm_num : ¬ (0:ℤ) < -2)]
  have havgs : formatFixed |(1/100 : ℚ)| ((-(-2) + ((2:ℕ):ℤ) - 1)).toNat
      = "0.010" := by
    rw [show ((-(-2) + ((2:ℕ):ℤ) - 1)).toNat = 3 by decide,
      show |(1/100 : ℚ)| = 1/100 from abs_of_nonneg (by norm_num)]
    unfold formatFixed
    rw [show (((3:ℕ):ℤ)) = (3:ℤ) by decide,
      show pow10 3 = 1000 by rw [pow10_eq_zpow]; norm_num,
      show (1/100 : ℚ) * 1000 = ((10:ℤ):ℚ) by norm_num,
      roundHalfEven_intCast]
    decide
  have hsus : formatFixed |(1/100 : ℚ) / pow10 (-2 - ((2:ℕ):ℤ) + 1)| 0
      = "10" := by
    rw [show ((-2 - ((2:ℕ):ℤ) + 1)) = -3 by decide,
      show pow10 (-3) = 1/1000 by rw [pow10_eq_zpow]; norm_num,
      show |(1/100 : ℚ) / (1/1000)| = ((10:ℤ):ℚ) by
        rw [show ((1/100 : ℚ) / (1/1000)) = 10 by norm_num]
        exact abs_of_nonneg (by norm_num)]
    unfold formatFixed
    rw [show (((0:ℕ):ℤ)) = (0:ℤ) by decide,
      show pow10 0 = 1 by rw [pow10_eq_zpow]; norm_num,
      mul_one, roundHalfEven_intCast]
    decide
  rw [havgs, hsus]
  decide

theorem sig_pos_9 : sig_pos (9/10) = -1 := by
  unfold sig_pos
  rw [show |(9/10 : ℚ)| = 9/10 from abs_of_nonneg (by norm_num)]
  apply qLog10_unique _ _ (by norm_num)
  · rw [pow10_eq_zpow]; norm_num
  · rw [pow10_eq_zpow]; norm_num

theorem sig3_9 : sig_3 (9/10) = 900/1000 := by
  have ht : qTrunc (|(9/10 : ℚ)| * pow10 (2 - sig_pos (9/10))) = 900 := by
    rw [show |(9/10 : ℚ)| = 9/10 from abs_of_nonneg (by norm_num),
      sig_pos_9, show ((2:ℤ) - -1) = 3 by decide,
      show pow10 3 = 1000 by rw [pow10_eq_zpow]; norm_num,
      show (9/10 : ℚ) * 1000 = ((900:ℤ):ℚ) by norm_num]
    exact qTrunc_eq_of_nonneg _ 900 (by norm_num) (by norm_num) (by norm_num)
  rw [sig_3_formula, ht]
  norm_num

theorem iucrRound_ex5 : iucrRound (-123/10) (9/10) = (-123/10, 9/10, -1, 1) := by
  have hsu : pyRound |(9/10 : ℚ)| (-sig_pos (9/10)) = 9/10 := by
    rw [show |(9/10 : ℚ)| = 9/10 from abs_of_nonneg (by norm_num), sig_pos_9,
      show (-(-1) : ℤ) = 1 by decide]
    unfold pyRound
    rw [show pow10 1 = 10 by rw [pow10_eq_zpow]; norm_num,
      show (9/10 : ℚ) * 10 = ((9:ℤ):ℚ) by norm_num,
      roundHalfEven_intCast]
    norm_num
  have havg : pyRound (-123/10) (-sig_pos (9/10)) = -123/10 := by
    rw [sig_pos_9, show (-(-1) : ℤ) = 1 by decide]
    unfold pyRound
    rw [show pow10 1 = 10 by rw [pow10_eq_zpow]; norm_num,
      show (-123/10 : ℚ) * 10 = ((-123:ℤ):ℚ) by norm_num,
      roundHalfEven_intCast]
    norm_num
  rw [iucrRound_b2 _ _ (not_lt.2 (by rw [sig3_9]; norm_num))
      (by rw [sig3_9]; norm_num), hsu, havg, sig_pos_9]

theorem iucr_example_5 : iucr_string (-123/10, 9/10) = "-12.3(9)" := by
  rw [iucr_string_core (-123/10) (9/10) (by norm_num) true
      (decide_eq_true (by norm_num)),
    iucr_core_eq true _ _ _ _ _ _ iucrRound_ex5]
  unfold iucrRender
  rw [if_neg (by norm_num : ¬ (0:ℤ) < -1)]
  have havgs : formatFixed |(-123/10 : ℚ)| ((-(-1) + ((1:ℕ):ℤ) - 1)).toNat
      = "12.3" := by
    rw [show ((-(-1) + ((1:ℕ):ℤ) - 1)).toNat = 1 by decide,
      show |(-123/10 : ℚ)| = 123/10 from by
        rw [abs_of_nonpos (by norm_num)]
        norm_num]
    unfold formatFixed
    rw [show (((1:ℕ):ℤ)) = (1:ℤ) by decide,
      show pow10 1 = 10 by rw [pow10_eq_zpow]; norm_num,
      show (123/10 : ℚ) * 10 = ((123:ℤ):ℚ) by norm_num,
      roundHalfEven_intCast]
    decide
  have hsus : formatFixed |(9/10 : ℚ) / pow10 (-1 - ((1:ℕ):ℤ) + 1)| 0
      = "9" := by
    rw [show ((-1 - ((1:ℕ):ℤ) + 1)) = -1 by decide,
      show pow10 (-1) = 1/10 by rw [pow10_eq_zpow]; norm_num,
      show |(9/10 : ℚ) / (1/10)| = ((9:ℤ):ℚ) by
        rw [show ((9/10 : ℚ) / (1/10)) = 9 by norm_num]
        exact abs_of_nonneg (by norm_num)]
    unfold formatFixed
    rw [show (((0:ℕ):ℤ)) = (0:ℤ) by decide,
      show pow10 0 = 1 by rw [pow10_eq_zpow]; norm_num,
      mul_one, roundHalfEven_intCast]
    decide
  rw [havgs, hsus]
  decide

theorem sig_pos_z12 : sig_pos (12/1000000) = -5 := by
  unfold sig_pos
  rw [show |(12/1000000 : ℚ)| = 12/1000000 from abs_of_nonneg (by norm_num)]
  apply qLog10_unique _ _ (by norm_num)
  · rw [pow10_eq_zpow]; norm_num
  · rw [pow10_eq_zpow]; norm_num

theorem sig3_z12 : sig_3 (12/1000000) = 120/1000 := by
  have ht : qTrunc (|(12/1000000 : ℚ)| * pow10 (2 - sig_pos (12/1000000)))
      = 120 := by
    rw [show |(12/1000000 : ℚ)| = 12/1000000 from abs_of_nonneg (by norm_num),
      sig_pos_z12, show ((2:ℤ) - -5) = 7 by decide,
      show pow10 7 = 10000000 by rw [pow10_eq_zpow]; norm_num,
      show (12/1000000 : ℚ) * 10000000 = ((120:ℤ):ℚ) by norm_num]
    exact qTrunc_eq_of_nonneg _ 120 (by norm_num) (by norm_num) (by norm_num)
  rw [sig_3_formula, ht]
  norm_num

theorem iucrRound_ex4 : iucrRound 0 (12/1000000) = (0, 12/1000000, -5, 2) := by
  have hsu : pyRound |(12/1000000 : ℚ)| (1 - sig_pos (12/1000000))
      = 12/1000000 := by
    rw [show |(12/1000000 : ℚ)| = 12/1000000 from abs_of_nonneg (by norm_num),
      sig_pos_z12, show ((1:ℤ) - -5) = 6 by decide]
    unfold pyRound
    rw [show pow10 6 = 1000000 by rw [pow10_eq_zpow]; norm_num,
      show (12/1000000 : ℚ) * 1000000 = ((12:ℤ):ℚ) by norm_num,
      roundHalfEven_intCast]
    norm_num
  have havg : pyRound 0 (1 - sig_pos (12/1000000)) = 0 := by
    rw [sig_pos_z12, show ((1:ℤ) - -5) = 6 by decide]
    unfold pyRound
    rw [show (0 : ℚ) * pow10 6 = ((0:ℤ):ℚ) by norm_num, roundHalfEven_intCast]
    norm_num
  rw [iucrRound_b1 _ _ (by rw [sig3_z12]; norm_num), hsu, havg, sig_pos_z12]

theorem iucr_example_4 : iucr_string (0, 12/1000000) = "0.000000(12)" := by
  rw [iucr_string_core 0 (12/1000000) (by norm_num) false
      (decide_eq_false (by norm_num)),
    iucr_core_eq false _ _ _ _ _ _ iucrRound_ex4]
  unfold iucrRender
  rw [if_neg (by norm_num : ¬ (0:ℤ) < -5)]
  have havgs : formatFixed |(0 : ℚ)| ((-(-5) + ((2:ℕ):ℤ) - 1)).toNat
      = "0.000000" := by
    rw [show ((-(-5) + ((2:ℕ):ℤ) - 1)).toNat = 6 by decide, abs_zero]
    unfold formatFixed
    rw [show (0 : ℚ) * pow10 (((6:ℕ):ℤ)) = ((0:ℤ):ℚ) by norm_num,
      roundHalfEven_intCast]
    decide
  have hsus : formatFixed |(12/1000000 : ℚ) / pow10 (-5 - ((2:ℕ):ℤ) + 1)| 0
      = "12" := by
    rw [show ((-5 - ((2:ℕ):ℤ) + 1)) = -6 by decide,
      show pow10 (-6) = 1/1000000 by rw [pow10_eq_zpow]; norm_num,
      show |(12/1000000 : ℚ) / (1/1000000)| = ((12:ℤ):ℚ) by
        rw [show ((12/1000000 : ℚ) / (1/1000000)) = 12 by norm_num]
        exact abs_of_nonneg (by norm_num)]
    unfold formatFixed
    rw [show (((0:ℕ):ℤ)) = (0:ℤ) by decide,
      show pow10 0 = 1 by rw [pow10_eq_zpow]; norm_num,
      mul_one, roundHalfEven_intCast]
    decide
  rw [havgs, hsus]
  decide

/-! ### The remaining claims -/

/-- Claim C1: for a pair with nonzero s.u., with `p = sig_pos su` the decimal
exponent of the s.u.'s leading digit and `lead3 = sig_3 su` its first three
significant digits normalised into [0.100, 0.999]: if `lead3 < 0.195` the
engine rounds both the average and `|su|` to `1-p` decimal places and reports
the uncertainty with 2 significant digits (`sig_len = 2`); else if
`lead3 < 0.950` it rounds both to `-p` decimal places with 1 significant
digit; and in particular `format(1.234, 0.056) = "1.23(6)"`. -/
theorem claim_C1 :
    (∀ a su : ℚ, su ≠ 0 →
      (sig_3 su < 195/1000 →
        iucrRound a su = (pyRound a (1 - sig_pos su),
          pyRound |su| (1 - sig_pos su), sig_pos su, 2)) ∧
      (195/1000 ≤ sig_3 su → sig_3 su < 950/1000 →
        iucrRound a su = (pyRound a (-sig_pos su),
          pyRound |su| (-sig_pos su), sig_pos su, 1))) ∧
    iucr_string (1234/1000, 56/1000) = "1.23(6)" :=
  ⟨fun a su _ => ⟨fun h => iucrRound_b1 a su h,
    fun h1 h2 => iucrRound_b2 a su (not_lt.2 h1) h2⟩, iucr_example_1⟩

/-- Witness for claim C1 at `(1.234, 0.056)` (the `lead3 = 0.56` branch). -/
theorem claim_C1_witness :
    iucrRound (1234/1000) (56/1000) = (pyRound (1234/1000) (-sig_pos (56/1000)),
      pyRound |(56/1000 : ℚ)| (-sig_pos (56/1000)), sig_pos (56/1000), 1) :=
  (claim_C1.1 (1234/1000) (56/1000) (by norm_num)).2 sig3_56_ge sig3_56_lt

/-- Claim C2: when the normalised leading three s.u. digits are at least
0.950, the engine increments `p` and rounds both values to `1-p` decimal
places at the new decade with 2 significant uncertainty digits; in
particular `format(0.01, 0.0096) = "0.010(10)"`: a single decade-shifted
"10", never a two-digit-before-carry artifact. -/
theorem claim_C2 :
    (∀ a su : ℚ, su ≠ 0 → 950/1000 ≤ sig_3 su →
      iucrRound a su = (pyRound a (1 - (sig_pos su + 1)),
        pyRound |su| (1 - (sig_pos su + 1)), sig_pos su + 1, 2)) ∧
    iucr_string (1/100, 96/10000) = "0.010(10)" :=
  ⟨fun a su _ h => iucrRound_b3 a su (not_lt.2 (le_trans (by norm_num) h))
    (not_lt.2 h), iucr_example_2⟩

/-- Witness for claim C2 at `su = 0.0096` (`lead3 = 0.96 ≥ 0.95`). -/
theorem claim_C2_witness :
    iucrRound (1/100) (96/10000) = (pyRound (1/100) (1 - (sig_pos (96/10000) + 1)),
      pyRound |(96/10000 : ℚ)| (1 - (sig_pos (96/10000) + 1)),
      sig_pos (96/10000) + 1, 2) :=
  claim_C2.1 (1/100) (96/10000) (by norm_num) sig3_96_ge

/-- Claim C4: the source compares the float `shift['zero']` against the
string literal `'0.000000'` with `!=`; in Python a float is never equal to a
string, so the comparison is always true and the zero-point clause is
emitted even when the refined shift is exactly zero (log text "0.000000"),
where the claim requires the bare newline placeholder.  Evaluating the
assembly at that failing input shows the clause. -/
theorem claim_C4 :
    special_details 0 (12/1000000) = "zero-point correction: 0.000000(12)" ∧
    special_details 0 (12/1000000) ≠ "\n" ∧
    (∀ zero zeroSu : ℚ, special_details zero zeroSu
      = "zero-point correction: " ++ iucr_string (zero, zeroSu)) := by
  have hall : ∀ zero zeroSu : ℚ, special_details zero zeroSu
      = "zero-point correction: " ++ iucr_string (zero, zeroSu) :=
    fun zero zeroSu => rfl
  refine ⟨?_, ?_, hall⟩
  · rw [hall, iucr_example_4]
    decide
  · rw [hall, iucr_example_4]
    decide

/-- Claim C5: with nonzero s.u. and final exponent `p ≤ 0`, the output is the
signed average formatted with `-p + sig_len - 1` decimal places followed by
the unsigned integer string of the rounded s.u. divided by
`10^(p - sig_len + 1)` in parentheses; in particular
`format(-12.3, 0.9) = "-12.3(9)"`: the sign stays on the average and the
uncertainty is unsigned. -/
theorem claim_C5 :
    (∀ (a su avg' su' : ℚ) (p : ℤ) (L : ℕ), su ≠ 0 →
      iucrRound a su = (avg', su', p, L) → p ≤ 0 →
      iucr_string (a, su)
        = ((if a < 0 then "-" else "")
            ++ formatFixed |avg'| ((-p + (L:ℤ) - 1)).toNat)
          ++ "(" ++ formatFixed |su' / pow10 (p - (L:ℤ) + 1)| 0 ++ ")") ∧
    iucr_string (-123/10, 9/10) = "-12.3(9)" := by
  refine ⟨?_, iucr_example_5⟩
  intro a su avg' su' p L hsu hr hple
  rw [iucr_string_core a su hsu _ rfl, iucr_core_eq _ a su avg' su' p L hr]
  unfold iucrRender
  rw [if_neg (not_lt.2 hple)]
  by_cases ha : a < 0
  · simp only [decide_eq_true_eq, if_pos ha]
  · simp only [decide_eq_true_eq, if_neg ha]

/-- Witness for claim C5 at `(-12.3, 0.9)` (final exponent `-1 ≤ 0`). -/
theorem claim_C5_witness :
    iucr_string (-123/10, 9/10)
      = ((if (-123/10 : ℚ) < 0 then "-" else "")
          ++ formatFixed |(-123/10 : ℚ)| ((-(-1) + ((1:ℕ):ℤ) - 1)).toNat)
        ++ "(" ++ formatFixed |(9/10 : ℚ) / pow10 (-1 - ((1:ℕ):ℤ) + 1)| 0 ++ ")" :=
  claim_C5.1 (-123/10) (9/10) (-123/10) (9/10) (-1) 1 (by norm_num)
    iucrRound_ex5 (by norm_num)

/-- Claim C8: re-formatting the already-rounded pair through the engine with
the same s.u. yields the identical output string.  The first part states it
for the engine core at any sign bit `neg` of the average float (Python's
`round` preserves a float's sign bit, so the re-run's average float is
exactly (`neg`, rounded magnitude)); the second part states it directly for
`iucr_string` whenever the average's strict sign survives rounding (the only
exception in exact arithmetic is a negative average rounding to `-0.0`,
which `ℚ` cannot represent). -/
theorem claim_C8 :
    (∀ (neg : Bool) (a su : ℚ), su ≠ 0 →
      iucr_core neg (iucrRound a su).1 (iucrRound a su).2.1 = iucr_core neg a su) ∧
    (∀ a su : ℚ, su ≠ 0 → (a < 0 ↔ (iucrRound a su).1 < 0) →
      iucr_string ((iucrRound a su).1, (iucrRound a su).2.1)
        = iucr_string (a, su)) := by
  have hcore : ∀ (neg : Bool) (a su : ℚ), su ≠ 0 →
      iucr_core neg (iucrRound a su).1 (iucrRound a su).2.1
        = iucr_core neg a su := by
    intro neg a su hsu
    unfold iucr_core
    rw [(iucrRound_idem a su hsu).2]
  refine ⟨hcore, ?_⟩
  intro a su hsu hsign
  have hpos := (iucrRound_idem a su hsu).1
  rw [iucr_string_core _ _ (ne_of_gt hpos) _ rfl,
    iucr_string_core a su hsu _ rfl,
    show (decide ((iucrRound a su).1 < 0)) = decide (a < 0) from
      decide_eq_decide.2 hsign.symm]
  exact hcore (decide (a < 0)) a su hsu

/-- Witness for claim C8 at `(1.234, 0.056)`. -/
theorem claim_C8_witness :
    iucr_core false (iucrRound (1234/1000) (56/1000)).1
      (iucrRound (1234/1000) (56/1000)).2.1
      = iucr_core false (1234/1000) (56/1000) :=
  claim_C8.1 false (1234/1000) (56/1000) (by norm_num)

theorem sig_pos_negArg (su : ℚ) : sig_pos (-su) = sig_pos su := by
  unfold sig_pos
  rw [abs_neg]

theorem sig_3_negArg (su : ℚ) : sig_3 (-su) = sig_3 su := by
  unfold sig_3
  rw [abs_neg, sig_pos_negArg]

theorem iucrRound_negArg (a su : ℚ) : iucrRound a (-su) = iucrRound a su := by
  unfold iucrRound
  rw [sig_3_negArg, sig_pos_negArg, abs_neg]

/-- Claim C10 (implicit): the engine reads the s.u. only through
`abs(values[1])` (exponent, truncation, rounding, digit extraction), so a
negative s.u. — outside the spec's precondition — formats identically to its
absolute value instead of being rejected. -/
theorem claim_C10 (a su : ℚ) (hsu : su ≠ 0) :
    iucr_string (a, su) = iucr_string (a, -su) := by
  rw [iucr_string_core a su hsu _ rfl,
    iucr_string_core a (-su) (neg_ne_zero.2 hsu) _ rfl]
  unfold iucr_core
  rw [iucrRound_negArg a su]

/-- Witness for claim C10 at `(1.234, 0.056)`. -/
theorem claim_C10_witness :
    iucr_string (1234/1000, 56/1000) = iucr_string (1234/1000, -(56/1000)) :=
  claim_C10 (1234/1000) (56/1000) (by norm_num)


